import Mathlib

/-!
Verification of the clique notebook (community/aqua/optimization/clique.ipynb).

The notebook defines a brute-force clique search (functions bitfield and
brute_force, cell-6) over a weighted graph, and drives library routines from
qiskit_aqua.translators.ising.clique (satisfy_or_not, get_clique_qubitops,
sample_most_likely, get_graph_solution) whose sources are not part of this
repository; those library routines are modelled from the specification and
each such definition says so in its doc comment.
-/

/-- A weighted graph: node count N and weight matrix W. An edge (i, j)
exists iff W i j is nonzero (spec, section 3). -/
structure WeightedGraph where
  N : Nat
  W : Nat → Nat → Int

/-- Little-endian binary digits of n, with explicit fuel so that the kernel
can evaluate it; natToBits f n is the digit list of n whenever n is at most f. -/
def natToBits : Nat → Nat → List Nat
  | _, 0 => []
  | 0, _ + 1 => []
  | f + 1, n + 1 => (n + 1) % 2 :: natToBits f ((n + 1) / 2)

/-- Little-endian binary digits of n (empty for n = 0). -/
def bitsLE (n : Nat) : List Nat := natToBits n n

/-- bitfield n L from the notebook (cell-6): np.binary_repr(n, L) turned into a
digit list, i.e. the big-endian binary digits of n zero-padded on the left to
width L. -/
def bitfield (n L : Nat) : List Nat :=
  List.replicate (L - (bitsLE n).length) 0 ++ (bitsLE n).reverse

/-- Modelled from the spec: qiskit_aqua.translators.ising.clique.satisfy_or_not,
a library routine whose source is not in this repository. Feasibility (spec,
section 4.3): exactly K entries of the assignment equal 1, and every pair of
distinct selected nodes i, j is joined by an edge (W i j nonzero). -/
def satisfy_or_not (x : List Nat) (w : WeightedGraph) (K : Nat) : Bool :=
  (x.count 1 == K) &&
  (List.range x.length).all (fun i =>
    (List.range x.length).all (fun j =>
      !(!(i == j) && (x.getD i 0 == 1) && (x.getD j 0 == 1)) || (w.W i j != 0)))

/-- The loop body of brute_force (cell-6): for i in range(max) test
bitfield i L with satisfy_or_not and break at the first success; fuel counts
the iterations that remain, and cur carries the last tested assignment, which
the loop returns together with has_sol = false when the range is exhausted. -/
def bf_loop (w : WeightedGraph) (K L : Nat) : Nat → Nat → List Nat → Bool × List Nat
  | 0, _, cur => (false, cur)
  | fuel + 1, i, _ =>
    let cur := bitfield i L
    if satisfy_or_not cur w K then (true, cur) else bf_loop w K L fuel (i + 1) cur

/-- brute_force from the notebook (cell-6): try every assignment i in
range(2 to the N), decoded by bitfield, and return (has_sol, cur). -/
def brute_force (w : WeightedGraph) (K : Nat) : Bool × List Nat :=
  bf_loop w K w.N (2 ^ w.N) 0 []

/-- The 5-node demo adjacency matrix printed in cell-4 of the notebook. -/
def demoW : List (List Int) :=
  [[0, 4, 5, 3, -5], [4, 0, 7, 0, 6], [5, 7, 0, -4, 0], [3, 0, -4, 0, 8], [-5, 6, 0, 8, 0]]

/-- The demo graph of the notebook: 5 nodes, weights read off demoW. -/
def demoGraph : WeightedGraph :=
  ⟨5, fun i j => (demoW.getD i []).getD j 0⟩

/-- Decode one spin value (plus or minus 1) to its bit: spinToBit v = (v + 1) / 2,
inverting the convention s = 2 x - 1 of spec section 4.2. -/
def spinToBit (v : Int) : Nat := ((v + 1) / 2).toNat

/-- Decode a spin vector to the corresponding bit assignment. -/
def spinToX (s : List Int) : List Nat := s.map spinToBit

/-- The canonical encoding of spec section 4.2: a node-membership bit x becomes
the spin s = 2 x - 1 (selected iff s = +1). -/
def encode_spin (x : List Nat) : List Int := x.map (fun v => 2 * (v : Int) - 1)

/-- The non-edge penalty term of the energy of spec section 4.2: the sum of
(1 + s i) * (1 + s j) over ordered pairs i, j of distinct nodes with no edge
between them. -/
def nonEdgePenalty (w : WeightedGraph) (s : List Int) : Int :=
  ∑ i ∈ Finset.range w.N, ∑ j ∈ Finset.range w.N,
    if i ≠ j ∧ w.W i j = 0 then (1 + s.getD i 0) * (1 + s.getD j 0) else 0

/-- Modelled from the spec: the energy function that EnergyModelBuilder
(library routine get_clique_qubitops, whose source is not in this repository)
builds for a graph and a clique size K, over spin variables s i in
plus or minus 1 with penalty coefficients A and B (spec section 4.2):
E(s) = A * (sum s - (2K - N))^2 + B * nonEdgePenalty. -/
def energyE (A B : Int) (w : WeightedGraph) (K : Nat) (s : List Int) : Int :=
  A * (s.sum - (2 * (K : Int) - (w.N : Int))) ^ 2 + B * nonEdgePenalty w s

/-- Modelled from the spec: qiskit_aqua.translators.ising.clique.get_graph_solution,
a library routine whose source is not in this repository. It normalizes a
solver-native vector (bits, spins, or fractional values, all read as integers
here) into the 0/1 node-membership vector by thresholding at zero, which
inverts the sign convention s = 2 x - 1 of spec section 4.2. -/
def get_graph_solution (s : List Int) : List Nat := s.map (fun v => if 0 < v then 1 else 0)

/-- Error kinds of the builder (spec section 7). -/
inductive BuildError where
  | InvalidSpec
  | InvalidGraph
deriving DecidableEq

/-- Graph well-formedness used by the builder (spec section 4.2): symmetric
weights and a zero diagonal, checked on the N first rows and columns. -/
def validGraph (w : WeightedGraph) : Bool :=
  (List.range w.N).all (fun i => (List.range w.N).all (fun j =>
    (w.W i j == w.W j i) && ((i != j) || (w.W i j == 0))))

/-- Modelled from the spec: EnergyModelBuilder.build (library routine
get_clique_qubitops, whose source is not in this repository). Validation is
eager and happens before any work: K outside 1..N fails with InvalidSpec, a
malformed graph fails with InvalidGraph, and otherwise the energy function of
spec section 4.2 is returned. -/
def build (A B : Int) (w : WeightedGraph) (K : Nat) : Except BuildError (List Int → Int) :=
  if K < 1 ∨ w.N < K then Except.error BuildError.InvalidSpec
  else if validGraph w then Except.ok (energyE A B w K)
  else Except.error BuildError.InvalidGraph

/-- The scan of np.argmax: walk the list keeping the first index whose value is
maximal; b is the (index, value) best so far, i the index of the head of the
remaining list. The best is replaced only on a strictly larger value, so ties
keep the smallest index. -/
def argmax_go : List ℚ → Nat × ℚ → Nat → Nat × ℚ
  | [], b, _ => b
  | a :: t, b, i => if b.2 < a then argmax_go t (i, a) (i + 1) else argmax_go t b (i + 1)

/-- Index of the first maximal element of a list (0 on the empty list). -/
def argmax_idx : List ℚ → Nat
  | [] => 0
  | a :: t => (argmax_go t (0, a) 1).1

/-- Modelled from the spec: qiskit_aqua.translators.ising.clique.sample_most_likely,
a library routine whose source is not in this repository. Amplitudes are
modelled as rationals; the probability of index i is the square of amplitude i;
the index of maximal probability (ties broken by the smallest index) is decoded
with the same bitfield convention as brute_force (spec section 4.4). -/
def sample_most_likely (n : Nat) (amplitudes : List ℚ) : List Nat :=
  bitfield (argmax_idx (amplitudes.map (fun a => a * a))) n

example : brute_force demoGraph 3 = (true, [1, 0, 0, 1, 1]) := by decide

example : bitfield 19 5 = [1, 0, 0, 1, 1] := by decide

example : satisfy_or_not [1, 0, 0, 1, 1] demoGraph 3 = true := by decide

example : brute_force demoGraph 5 = (false, [1, 1, 1, 1, 1]) := by decide

/-! Helper lemmas on the digit machinery. -/

theorem natToBits_getD (f : Nat) :
    ∀ n, n ≤ f → ∀ i, (natToBits f n).getD i 0 = n / 2 ^ i % 2 := by
  induction f with
  | zero =>
    intro n hn i
    interval_cases n
    simp [natToBits]
  | succ f ih =>
    intro n hn i
    match n with
    | 0 => simp [natToBits]
    | n + 1 =>
      match i with
      | 0 => simp [natToBits]
      | i + 1 =>
        have h2 : (n + 1) / 2 ≤ f := by omega
        simp only [natToBits, List.getD_cons_succ]
        rw [ih _ h2 i, Nat.div_div_eq_div_mul, ← pow_succ']

theorem natToBits_length_le (f : Nat) :
    ∀ n L, n ≤ f → n < 2 ^ L → (natToBits f n).length ≤ L := by
  induction f with
  | zero =>
    intro n L hn _
    interval_cases n
    simp [natToBits]
  | succ f ih =>
    intro n L hn hL
    match n with
    | 0 => simp [natToBits]
    | n + 1 =>
      match L with
      | 0 => simp at hL
      | L + 1 =>
        simp only [natToBits, List.length_cons]
        have h2 : (n + 1) / 2 ≤ f := by omega
        have hlt : (n + 1) / 2 < 2 ^ L := by
          rw [pow_succ] at hL
          omega
        have := ih _ L h2 hlt
        omega

theorem natToBits_lt (f : Nat) :
    ∀ n, n ≤ f → n < 2 ^ (natToBits f n).length := by
  induction f with
  | zero =>
    intro n hn
    interval_cases n
    simp [natToBits]
  | succ f ih =>
    intro n hn
    match n with
    | 0 => simp [natToBits]
    | n + 1 =>
      simp only [natToBits, List.length_cons, pow_succ]
      have h2 : (n + 1) / 2 ≤ f := by omega
      have := ih _ h2
      omega

theorem bitsLE_getD (n i : Nat) : (bitsLE n).getD i 0 = n / 2 ^ i % 2 :=
  natToBits_getD n n le_rfl i

theorem bitsLE_length_le (n L : Nat) (h : n < 2 ^ L) : (bitsLE n).length ≤ L :=
  natToBits_length_le n n L le_rfl h

theorem bitsLE_lt (n : Nat) : n < 2 ^ (bitsLE n).length :=
  natToBits_lt n n le_rfl

theorem bitfield_length (n L : Nat) (h : n < 2 ^ L) : (bitfield n L).length = L := by
  have hd := bitsLE_length_le n L h
  simp only [bitfield, List.length_append, List.length_replicate, List.length_reverse]
  omega

theorem bitfield_getD (n L : Nat) (h : n < 2 ^ L) :
    ∀ k, k < L → (bitfield n L).getD k 0 = n / 2 ^ (L - 1 - k) % 2 := by
  intro k hk
  have hd := bitsLE_length_le n L h
  have hlen := bitfield_length n L h
  have hklen : k < (bitfield n L).length := by omega
  rw [List.getD_eq_getElem _ _ hklen]
  by_cases hcase : k < L - (bitsLE n).length
  · simp only [bitfield] at hklen ⊢
    rw [List.getElem_append _ hklen, dif_pos (by simp; omega), List.getElem_replicate]
    have hbig : n < 2 ^ (L - 1 - k) := by
      calc n < 2 ^ (bitsLE n).length := bitsLE_lt n
      _ ≤ 2 ^ (L - 1 - k) := Nat.pow_le_pow_right (by omega) (by omega)
    rw [Nat.div_eq_of_lt hbig]
  · simp only [bitfield] at hklen ⊢
    rw [List.getElem_append _ hklen, dif_neg (by simp; omega)]
    rw [List.getElem_reverse]
    rw [← List.getD_eq_getElem _ 0, bitsLE_getD]
    have hexp : (bitsLE n).length - 1 -
        (k - (List.replicate (L - (bitsLE n).length) (0 : Nat)).length) = L - 1 - k := by
      simp only [List.length_replicate]
      omega
    rw [hexp]

theorem bitfield_mem (n L : Nat) (h : n < 2 ^ L) :
    ∀ v ∈ bitfield n L, v = 0 ∨ v = 1 := by
  intro v hv
  obtain ⟨k, hk, rfl⟩ := List.mem_iff_getElem.1 hv
  rw [← List.getD_eq_getElem _ 0 hk, bitfield_getD n L h k (by rwa [bitfield_length n L h] at hk)]
  omega

theorem natToBits_all_ones (N : Nat) :
    ∀ f, 2 ^ N - 1 ≤ f → natToBits f (2 ^ N - 1) = List.replicate N 1 := by
  induction N with
  | zero => intro f _; match f with
    | 0 => rfl
    | f + 1 => rfl
  | succ N ih =>
    intro f hf
    have hpos : 1 ≤ 2 ^ (N + 1) - 1 := by
      have : 2 ^ N ≥ 1 := Nat.one_le_two_pow
      rw [pow_succ]; omega
    obtain ⟨m, hm⟩ : ∃ m, 2 ^ (N + 1) - 1 = m + 1 := ⟨2 ^ (N + 1) - 2, by omega⟩
    obtain ⟨f', hf'⟩ : ∃ g, f = g + 1 := ⟨f - 1, by omega⟩
    subst hf'
    rw [hm]
    show (m + 1) % 2 :: natToBits f' ((m + 1) / 2) = List.replicate (N + 1) 1
    have hme : m + 1 = 2 * (2 ^ N - 1) + 1 := by
      have : 2 ^ N ≥ 1 := Nat.one_le_two_pow
      rw [← hm, pow_succ]; omega
    have hmod : (m + 1) % 2 = 1 := by omega
    have hdiv : (m + 1) / 2 = 2 ^ N - 1 := by omega
    rw [hmod, hdiv, ih f' (by rw [hme] at hm; omega), List.replicate_succ]

theorem bitfield_all_ones (N : Nat) : bitfield (2 ^ N - 1) N = List.replicate N 1 := by
  have h1 : bitsLE (2 ^ N - 1) = List.replicate N 1 := natToBits_all_ones N _ le_rfl
  rw [bitfield, h1, List.reverse_replicate, List.length_replicate, Nat.sub_self,
    List.replicate_zero, List.nil_append]

/-! Helper lemmas on the verifier and the search loop. -/

theorem satisfy_iff (x : List Nat) (w : WeightedGraph) (K : Nat) :
    satisfy_or_not x w K = true ↔
      (x.count 1 = K ∧ ∀ i j, i < x.length → j < x.length → i ≠ j →
        x.getD i 0 = 1 → x.getD j 0 = 1 → w.W i j ≠ 0) := by
  have inner : ∀ i j : Nat,
      ((!(!(i == j) && (x.getD i 0 == 1) && (x.getD j 0 == 1)) || (w.W i j != 0)) = true) ↔
        (i ≠ j → x.getD i 0 = 1 → x.getD j 0 = 1 → w.W i j ≠ 0) := by
    intro i j
    simp only [List.getD]
    by_cases hij : i = j <;> by_cases hxi : x[i]?.getD 0 = 1 <;>
      by_cases hxj : x[j]?.getD 0 = 1 <;> by_cases hw : w.W i j = 0 <;>
      simp [hij, hxi, hxj, hw]
  simp only [satisfy_or_not, Bool.and_eq_true, beq_iff_eq, List.all_eq_true, List.mem_range,
    inner]
  constructor
  · rintro ⟨hc, hp⟩
    exact ⟨hc, fun i j hi hj => hp i hi j hj⟩
  · rintro ⟨hc, hp⟩
    exact ⟨hc, fun i hi j hj => hp i j hi hj⟩

theorem bf_loop_step (w : WeightedGraph) (K L fuel i : Nat) (cur : List Nat) :
    bf_loop w K L (fuel + 1) i cur =
      if satisfy_or_not (bitfield i L) w K then (true, bitfield i L)
      else bf_loop w K L fuel (i + 1) (bitfield i L) := rfl

theorem bf_loop_true_satisfies (w : WeightedGraph) (K L : Nat) :
    ∀ fuel i cur, (bf_loop w K L fuel i cur).1 = true →
      satisfy_or_not (bf_loop w K L fuel i cur).2 w K = true := by
  intro fuel
  induction fuel with
  | zero => intro i cur h; simp [bf_loop] at h
  | succ fuel ih =>
    intro i cur h
    by_cases hs : satisfy_or_not (bitfield i L) w K = true
    · simp [bf_loop, hs]
    · simp only [bf_loop, if_neg hs] at h ⊢
      exact ih _ _ h

theorem bf_loop_first (w : WeightedGraph) (K L : Nat) :
    ∀ fuel i cur i₀, i ≤ i₀ → i₀ < i + fuel →
      satisfy_or_not (bitfield i₀ L) w K = true →
      (∀ j, i ≤ j → j < i₀ → satisfy_or_not (bitfield j L) w K = false) →
      bf_loop w K L fuel i cur = (true, bitfield i₀ L) := by
  intro fuel
  induction fuel with
  | zero => intro i cur i₀ h1 h2 _ _; omega
  | succ fuel ih =>
    intro i cur i₀ h1 h2 hsat hmin
    rcases Nat.eq_or_lt_of_le h1 with rfl | hlt
    · simp [bf_loop, hsat]
    · have hi : satisfy_or_not (bitfield i L) w K = false := hmin i le_rfl hlt
      simp only [bf_loop, if_neg (by simp [hi] : ¬satisfy_or_not (bitfield i L) w K = true)]
      exact ih (i + 1) _ i₀ hlt (by omega) hsat (fun j hj1 hj2 => hmin j (by omega) hj2)

theorem bf_loop_exhaust (w : WeightedGraph) (K L : Nat) :
    ∀ fuel i cur, 1 ≤ fuel →
      (∀ j, i ≤ j → j < i + fuel → satisfy_or_not (bitfield j L) w K = false) →
      bf_loop w K L fuel i cur = (false, bitfield (i + fuel - 1) L) := by
  intro fuel
  induction fuel with
  | zero => intro i cur h _; omega
  | succ fuel ih =>
    intro i cur _ hall
    have hi : satisfy_or_not (bitfield i L) w K = false := hall i le_rfl (by omega)
    cases fuel with
    | zero => simp [bf_loop, hi]
    | succ fuel =>
      rw [bf_loop_step, if_neg (by simp [hi] : ¬satisfy_or_not (bitfield i L) w K = true)]
      have he : i + 1 + (fuel + 1) - 1 = i + (fuel + 1 + 1) - 1 := by omega
      rw [ih (i + 1) (bitfield i L) (by omega) (fun j h1 h2 => hall j (by omega) (by omega)), he]

/-! Helper lemmas on spins and the energy model. -/

theorem spinToBit_one : spinToBit 1 = 1 := rfl

theorem spinToBit_negone : spinToBit (-1) = 0 := rfl

theorem getD_mem (s : List Int) (i : Nat) (h : i < s.length) : s.getD i 0 ∈ s := by
  rw [List.getD_eq_getElem _ _ h]
  exact List.getElem_mem h

theorem spinToX_length (s : List Int) : (spinToX s).length = s.length := by
  simp [spinToX]

theorem spinToX_getD (s : List Int) (i : Nat) (h : i < s.length) :
    (spinToX s).getD i 0 = spinToBit (s.getD i 0) := by
  have h' : i < (spinToX s).length := by rw [spinToX_length]; exact h
  rw [List.getD_eq_getElem _ _ h', List.getD_eq_getElem _ _ h]
  simp [spinToX]

theorem spinToX_count (s : List Int) (hs : ∀ v ∈ s, v = 1 ∨ v = -1) :
    s.sum = 2 * ((spinToX s).count 1 : Int) - s.length := by
  induction s with
  | nil => simp [spinToX]
  | cons a t ih =>
    have ht : ∀ v ∈ t, v = 1 ∨ v = -1 := fun v hv => hs v (List.mem_cons_of_mem a hv)
    have hi := ih ht
    have hx : spinToX (a :: t) = spinToBit a :: spinToX t := rfl
    rw [List.sum_cons, hx, List.count_cons, List.length_cons]
    rcases hs a (List.mem_cons_self a t) with rfl | rfl
    · rw [spinToBit_one]
      simp only [beq_self_eq_true, if_true]
      push_cast
      omega
    · rw [spinToBit_negone]
      norm_num
      omega

theorem spin_pair_nonneg (a b : Int) (ha : a = 1 ∨ a = -1) (hb : b = 1 ∨ b = -1) :
    0 ≤ (1 + a) * (1 + b) := by
  rcases ha with rfl | rfl <;> rcases hb with rfl | rfl <;> decide

theorem spin_pair_zero_iff (a b : Int) (ha : a = 1 ∨ a = -1) (hb : b = 1 ∨ b = -1) :
    (1 + a) * (1 + b) = 0 ↔ ¬(spinToBit a = 1 ∧ spinToBit b = 1) := by
  rcases ha with rfl | rfl <;> rcases hb with rfl | rfl <;> decide

theorem pen_term_nonneg (w : WeightedGraph) (s : List Int) (hlen : s.length = w.N)
    (hs : ∀ v ∈ s, v = 1 ∨ v = -1) (i j : Nat) (hi : i < w.N) (hj : j < w.N) :
    0 ≤ if i ≠ j ∧ w.W i j = 0 then (1 + s.getD i 0) * (1 + s.getD j 0) else 0 := by
  split_ifs with hc
  · exact spin_pair_nonneg _ _ (hs _ (getD_mem s i (by omega))) (hs _ (getD_mem s j (by omega)))
  · exact le_refl 0

theorem nonEdgePenalty_nonneg (w : WeightedGraph) (s : List Int)
    (hlen : s.length = w.N) (hs : ∀ v ∈ s, v = 1 ∨ v = -1) :
    0 ≤ nonEdgePenalty w s := by
  refine Finset.sum_nonneg fun i hi => Finset.sum_nonneg fun j hj => ?_
  exact pen_term_nonneg w s hlen hs i j (Finset.mem_range.1 hi) (Finset.mem_range.1 hj)

theorem nonEdgePenalty_eq_zero_iff (w : WeightedGraph) (s : List Int)
    (hlen : s.length = w.N) (hs : ∀ v ∈ s, v = 1 ∨ v = -1) :
    nonEdgePenalty w s = 0 ↔
      ∀ i j, i < w.N → j < w.N → i ≠ j → w.W i j = 0 →
        (1 + s.getD i 0) * (1 + s.getD j 0) = 0 := by
  rw [nonEdgePenalty,
    Finset.sum_eq_zero_iff_of_nonneg (fun i hi => Finset.sum_nonneg fun j hj =>
      pen_term_nonneg w s hlen hs i j (Finset.mem_range.1 hi) (Finset.mem_range.1 hj))]
  constructor
  · intro h i j hi hj hij hw
    have hrow := h i (Finset.mem_range.2 hi)
    rw [Finset.sum_eq_zero_iff_of_nonneg (fun j hj => pen_term_nonneg w s hlen hs i j hi
      (Finset.mem_range.1 hj))] at hrow
    have := hrow j (Finset.mem_range.2 hj)
    rwa [if_pos ⟨hij, hw⟩] at this
  · intro h i hi
    refine Finset.sum_eq_zero fun j hj => ?_
    split_ifs with hc
    · exact h i j (Finset.mem_range.1 hi) (Finset.mem_range.1 hj) hc.1 hc.2
    · rfl

/-! Helper lemmas on the argmax scan. -/

theorem argmax_go_step (a : ℚ) (t : List ℚ) (bi : Nat) (bv : ℚ) (i : Nat) :
    argmax_go (a :: t) (bi, bv) i =
      if bv < a then argmax_go t (i, a) (i + 1) else argmax_go t (bi, bv) (i + 1) := rfl

theorem argmax_go_spec (l : List ℚ) :
    ∀ m i bi bv, i + m = l.length → bi < i → bv = l.getD bi 0 →
      (∀ j, j < i → j ≠ bi → l.getD j 0 ≤ bv) →
      (∀ j, j < bi → l.getD j 0 < bv) →
      (argmax_go (l.drop i) (bi, bv) i).1 < l.length ∧
      (argmax_go (l.drop i) (bi, bv) i).2 = l.getD (argmax_go (l.drop i) (bi, bv) i).1 0 ∧
      (∀ j, j < l.length → l.getD j 0 ≤ (argmax_go (l.drop i) (bi, bv) i).2) ∧
      (∀ j, j < (argmax_go (l.drop i) (bi, bv) i).1 →
        l.getD j 0 < (argmax_go (l.drop i) (bi, bv) i).2) := by
  intro m
  induction m with
  | zero =>
    intro i bi bv hi hbi hbv hup hstrict
    have hdrop : l.drop i = [] := List.drop_eq_nil_of_le (by omega)
    rw [hdrop]
    refine ⟨(by omega : bi < l.length), hbv, ?_, ?_⟩
    · intro j hj
      by_cases hjb : j = bi
      · rw [hjb, ← hbv]
        exact le_refl bv
      · exact hup j (by omega) hjb
    · intro j hj
      exact hstrict j hj
  | succ m ih =>
    intro i bi bv hi hbi hbv hup hstrict
    have hilt : i < l.length := by omega
    have hdrop : l.drop i = l.getD i 0 :: l.drop (i + 1) := by
      rw [List.getD_eq_getElem _ _ hilt]
      exact List.drop_eq_getElem_cons hilt
    rw [hdrop, argmax_go_step]
    by_cases hcmp : bv < l.getD i 0
    · rw [if_pos hcmp]
      refine ih (i + 1) i (l.getD i 0) (by omega) (by omega) rfl ?_ ?_
      · intro j hj hjne
        by_cases hjb : j = bi
        · rw [hjb, ← hbv]
          exact hcmp.le
        · exact le_trans (hup j (by omega) hjb) hcmp.le
      · intro j hj
        by_cases hjb : j = bi
        · rw [hjb, ← hbv]
          exact hcmp
        · exact lt_of_le_of_lt (hup j (by omega) hjb) hcmp
    · rw [if_neg hcmp]
      refine ih (i + 1) bi bv (by omega) (by omega) hbv ?_ hstrict
      intro j hj hjb
      by_cases hji : j = i
      · rw [hji]
        exact not_lt.1 hcmp
      · exact hup j (by omega) hjb

theorem argmax_idx_spec (l : List ℚ) (hl : 0 < l.length) :
    argmax_idx l < l.length ∧
    (∀ j, j < l.length → l.getD j 0 ≤ l.getD (argmax_idx l) 0) ∧
    (∀ j, j < argmax_idx l → l.getD j 0 < l.getD (argmax_idx l) 0) := by
  match l with
  | [] => simp at hl
  | a :: t =>
    have hspec := argmax_go_spec (a :: t) t.length 1 0 a (by simp; omega) (by omega) rfl
      (by intro j hj hjb; omega) (by intro j hj; omega)
    rw [show (a :: t).drop 1 = t from rfl] at hspec
    obtain ⟨h1, h2, h3, h4⟩ := hspec
    rw [h2] at h3 h4
    exact ⟨h1, h3, h4⟩

/-! The claims. -/

/-- C1: for every valid (graph, clique-spec) pair with penalty coefficients
A > 0 and B > 0, the energy E(s) = A (sum s - (2K - N))^2 + B sum over
non-adjacent pairs of (1 + s i)(1 + s j) built by EnergyModelBuilder is
nonnegative, and it attains its minimum (zero penalty) exactly at assignments
that decode to feasible size-K cliques; every infeasible assignment has a
strictly greater energy. -/
theorem c1_energy_zero_iff_clique (A B : Int) (w : WeightedGraph) (K : Nat) (s : List Int)
    (hA : 0 < A) (hB : 0 < B) (hK : 1 ≤ K ∧ K ≤ w.N)
    (hlen : s.length = w.N) (hs : ∀ v ∈ s, v = 1 ∨ v = -1) :
    0 ≤ energyE A B w K s ∧
      (energyE A B w K s = 0 ↔ satisfy_or_not (spinToX s) w K = true) := by
  have hsq : 0 ≤ (s.sum - (2 * (K : Int) - (w.N : Int))) ^ 2 := sq_nonneg _
  have hpen : 0 ≤ nonEdgePenalty w s := nonEdgePenalty_nonneg w s hlen hs
  have h1 : 0 ≤ A * (s.sum - (2 * (K : Int) - (w.N : Int))) ^ 2 := mul_nonneg hA.le hsq
  have h2 : 0 ≤ B * nonEdgePenalty w s := mul_nonneg hB.le hpen
  refine ⟨add_nonneg h1 h2, ?_⟩
  have hcount : (s.sum = 2 * (K : Int) - (w.N : Int)) ↔ (spinToX s).count 1 = K := by
    rw [spinToX_count s hs, hlen]
    omega
  have hpair : (∀ i j, i < w.N → j < w.N → i ≠ j → w.W i j = 0 →
      (1 + s.getD i 0) * (1 + s.getD j 0) = 0) ↔
      (∀ i j, i < (spinToX s).length → j < (spinToX s).length → i ≠ j →
        (spinToX s).getD i 0 = 1 → (spinToX s).getD j 0 = 1 → w.W i j ≠ 0) := by
    rw [spinToX_length, hlen]
    constructor
    · intro h i j hi hj hij hxi hxj hw0
      have hz := h i j hi hj hij hw0
      rw [spin_pair_zero_iff _ _ (hs _ (getD_mem s i (by omega)))
        (hs _ (getD_mem s j (by omega)))] at hz
      exact hz ⟨by rwa [← spinToX_getD s i (by omega)], by rwa [← spinToX_getD s j (by omega)]⟩
    · intro h i j hi hj hij hw0
      rw [spin_pair_zero_iff _ _ (hs _ (getD_mem s i (by omega)))
        (hs _ (getD_mem s j (by omega)))]
      rintro ⟨hxi, hxj⟩
      exact h i j hi hj hij (by rwa [spinToX_getD s i (by omega)])
        (by rwa [spinToX_getD s j (by omega)]) hw0
  calc energyE A B w K s = 0
      ↔ (s.sum - (2 * (K : Int) - (w.N : Int))) ^ 2 = 0 ∧ nonEdgePenalty w s = 0 := by
        rw [energyE, add_eq_zero_iff_of_nonneg h1 h2, mul_eq_zero, mul_eq_zero,
          or_iff_right (ne_of_gt hA), or_iff_right (ne_of_gt hB)]
    _ ↔ (s.sum = 2 * (K : Int) - (w.N : Int)) ∧
          (∀ i j, i < w.N → j < w.N → i ≠ j → w.W i j = 0 →
            (1 + s.getD i 0) * (1 + s.getD j 0) = 0) := by
        rw [sq_eq_zero_iff, sub_eq_zero, nonEdgePenalty_eq_zero_iff w s hlen hs]
    _ ↔ ((spinToX s).count 1 = K ∧
          (∀ i j, i < (spinToX s).length → j < (spinToX s).length → i ≠ j →
            (spinToX s).getD i 0 = 1 → (spinToX s).getD j 0 = 1 → w.W i j ≠ 0)) :=
        and_congr hcount hpair
    _ ↔ satisfy_or_not (spinToX s) w K = true := (satisfy_iff _ w K).symm

/-- Witness for C1 at the demo graph, K = 3, A = B = 1 and the spin encoding
of the clique 0, 3, 4. -/
theorem c1_witness :
    0 ≤ energyE 1 1 demoGraph 3 [1, -1, -1, 1, 1] ∧
      (energyE 1 1 demoGraph 3 [1, -1, -1, 1, 1] = 0 ↔
        satisfy_or_not (spinToX [1, -1, -1, 1, 1]) demoGraph 3 = true) :=
  c1_energy_zero_iff_clique 1 1 demoGraph 3 [1, -1, -1, 1, 1] (by decide) (by decide)
    (by decide) (by decide) (by decide)

/-- C2: satisfy_or_not is a total boolean function (it always returns true or
false), and it returns true iff the assignment has exactly K entries equal to 1
and every pair of distinct selected nodes is joined by an edge of the graph. -/
theorem c2_satisfy_or_not_spec (x : List Nat) (w : WeightedGraph) (K : Nat) :
    (satisfy_or_not x w K = true ∨ satisfy_or_not x w K = false) ∧
    (satisfy_or_not x w K = true ↔
      (x.count 1 = K ∧ ∀ i j, i < x.length → j < x.length → i ≠ j →
        x.getD i 0 = 1 → x.getD j 0 = 1 → w.W i j ≠ 0)) :=
  ⟨Bool.eq_false_or_eq_true _, satisfy_iff x w K⟩

/-- C3: brute_force enumerates the integers 0 <= i < 2 to the N in increasing
order, decodes each with bitfield, and returns the decoded assignment of the
smallest satisfying i together with has_sol = true; when no i satisfies, it
reports has_sol = false. -/
theorem c3_brute_force_enumeration (w : WeightedGraph) (K : Nat) :
    (∀ i₀, i₀ < 2 ^ w.N → satisfy_or_not (bitfield i₀ w.N) w K = true →
      (∀ j, j < i₀ → satisfy_or_not (bitfield j w.N) w K = false) →
      brute_force w K = (true, bitfield i₀ w.N)) ∧
    ((∀ i, i < 2 ^ w.N → satisfy_or_not (bitfield i w.N) w K = false) →
      (brute_force w K).1 = false) := by
  constructor
  · intro i₀ h0 hsat hmin
    exact bf_loop_first w K w.N (2 ^ w.N) 0 [] i₀ (Nat.zero_le _) (by omega) hsat
      (fun j _ hj2 => hmin j hj2)
  · intro hall
    have hbf := bf_loop_exhaust w K w.N (2 ^ w.N) 0 [] Nat.one_le_two_pow
      (fun j _ hj2 => hall j (by omega))
    show (bf_loop w K w.N (2 ^ w.N) 0 []).1 = false
    rw [hbf]

/-- C4: whenever brute_force reports success with assignment x for a valid
(N, K), x satisfies the verifier and has exactly K entries equal to 1. -/
theorem c4_brute_force_sound (w : WeightedGraph) (K : Nat) (x : List Nat)
    (hK : 1 ≤ K ∧ K ≤ w.N) (h : brute_force w K = (true, x)) :
    satisfy_or_not x w K = true ∧ x.count 1 = K := by
  have h1 : (bf_loop w K w.N (2 ^ w.N) 0 []).1 = true := by
    show (brute_force w K).1 = true
    rw [h]
  have hs := bf_loop_true_satisfies w K w.N (2 ^ w.N) 0 [] h1
  have hs' : satisfy_or_not (brute_force w K).2 w K = true := hs
  rw [h] at hs'
  exact ⟨hs', ((satisfy_iff x w K).1 hs').1⟩

/-- Witness for C4 at the demo graph and K = 3. -/
theorem c4_witness :
    satisfy_or_not [1, 0, 0, 1, 1] demoGraph 3 = true ∧
      ([1, 0, 0, 1, 1] : List Nat).count 1 = 3 :=
  c4_brute_force_sound demoGraph 3 [1, 0, 0, 1, 1] (by decide) (by decide)

/-- C5: on the 5-node demo graph with K = 3, brute_force returns the
assignment selecting nodes 0, 3 and 4, which has exactly three selected nodes,
pairwise connected, and satisfy_or_not accepts it. -/
theorem c5_demo_scenario :
    brute_force demoGraph 3 = (true, [1, 0, 0, 1, 1]) ∧
    satisfy_or_not [1, 0, 0, 1, 1] demoGraph 3 = true ∧
    ([1, 0, 0, 1, 1] : List Nat).count 1 = 3 ∧
    (∀ i, i < 5 → ∀ j, j < 5 → i ≠ j → ([1, 0, 0, 1, 1] : List Nat).getD i 0 = 1 →
      ([1, 0, 0, 1, 1] : List Nat).getD j 0 = 1 → demoGraph.W i j ≠ 0) := by
  refine ⟨by decide, by decide, by decide, ?_⟩
  intro i hi j hj
  interval_cases i <;> interval_cases j <;> decide

/-- C6: sample_most_likely, on a length 2 to the n amplitude vector, decodes
with bitfield (the brute_force convention) the index of globally maximal
probability (squared amplitude), ties broken by the smallest index; it is a
pure function, hence deterministic. -/
theorem c6_sample_most_likely_spec (n : Nat) (amps : List ℚ) (h : amps.length = 2 ^ n) :
    sample_most_likely n amps = bitfield (argmax_idx (amps.map fun a => a * a)) n ∧
    argmax_idx (amps.map fun a => a * a) < amps.length ∧
    (∀ j, j < amps.length → (amps.map fun a => a * a).getD j 0 ≤
      (amps.map fun a => a * a).getD (argmax_idx (amps.map fun a => a * a)) 0) ∧
    (∀ j, j < argmax_idx (amps.map fun a => a * a) → (amps.map fun a => a * a).getD j 0 <
      (amps.map fun a => a * a).getD (argmax_idx (amps.map fun a => a * a)) 0) := by
  have hlen : (amps.map fun a => a * a).length = amps.length := List.length_map _ _
  have hpos : 0 < (amps.map fun a => a * a).length := by
    rw [hlen, h]
    exact Nat.one_le_two_pow
  obtain ⟨h1, h2, h3⟩ := argmax_idx_spec _ hpos
  exact ⟨rfl, by omega, fun j hj => h2 j (by omega), h3⟩

/-- Witness for C6 at n = 2 with amplitudes 0, 1, -1, 0: the maximal
probability 1 is first attained at index 1. -/
theorem c6_witness :
    ([0, 1, -1, 0] : List ℚ).length = 2 ^ 2 ∧
    argmax_idx (([0, 1, -1, 0] : List ℚ).map fun a => a * a) = 1 ∧
    sample_most_likely 2 [0, 1, -1, 0] =
      bitfield (argmax_idx (([0, 1, -1, 0] : List ℚ).map fun a => a * a)) 2 :=
  ⟨by decide, by norm_num [argmax_idx, argmax_go],
    (c6_sample_most_likely_spec 2 [0, 1, -1, 0] (by decide)).1⟩

/-- Decoding the section 4.2 spin encoding of a 0/1 vector is the identity. -/
theorem decode_encode_id (x : List Nat) (hx : ∀ v ∈ x, v = 0 ∨ v = 1) :
    get_graph_solution (encode_spin x) = x := by
  induction x with
  | nil => rfl
  | cons a t ih =>
    have ht : ∀ v ∈ t, v = 0 ∨ v = 1 := fun v hv => hx v (List.mem_cons_of_mem a hv)
    have hh : get_graph_solution (encode_spin (a :: t)) =
        (if 0 < 2 * (a : Int) - 1 then 1 else 0) :: get_graph_solution (encode_spin t) := rfl
    rw [hh, ih ht]
    rcases hx a (List.mem_cons_self a t) with rfl | rfl <;> norm_num

/-- C7: get_graph_solution inverts the canonical sign/offset encoding of
section 4.2 on feasible cliques: decoding the spin encoding of a feasible 0/1
assignment returns exactly that assignment. -/
theorem c7_get_graph_solution_id (w : WeightedGraph) (K : Nat) (x : List Nat)
    (hx : ∀ v ∈ x, v = 0 ∨ v = 1) (hfeas : satisfy_or_not x w K = true) :
    get_graph_solution (encode_spin x) = x :=
  decode_encode_id x hx

/-- Witness for C7 at the demo graph, K = 3 and the feasible clique 0, 3, 4. -/
theorem c7_witness : get_graph_solution (encode_spin [1, 0, 0, 1, 1]) = [1, 0, 0, 1, 1] :=
  c7_get_graph_solution_id demoGraph 3 [1, 0, 0, 1, 1] (by decide) (by decide)

/-- C8: the builder fails with InvalidSpec, before any other work, whenever
K < 1 or K > N, for every graph. -/
theorem c8_build_invalid_spec (A B : Int) (w : WeightedGraph) (K : Nat)
    (h : K < 1 ∨ w.N < K) :
    build A B w K = Except.error BuildError.InvalidSpec := by
  simp only [build]
  exact if_pos h

/-- Witness for C8: K = 0 and K = N + 1 = 6 on the demo graph both fail
with InvalidSpec. -/
theorem c8_witness :
    build 1 1 demoGraph 0 = Except.error BuildError.InvalidSpec ∧
      build 1 1 demoGraph 6 = Except.error BuildError.InvalidSpec :=
  ⟨c8_build_invalid_spec 1 1 demoGraph 0 (Or.inl (by decide)),
   c8_build_invalid_spec 1 1 demoGraph 6 (Or.inr (by decide))⟩

/-- C9: when no assignment is feasible, brute_force still returns a pair: the
flag false together with the last enumerated assignment, the all-ones vector
of length N, which is itself infeasible. -/
theorem c9_brute_force_no_solution (w : WeightedGraph) (K : Nat)
    (h : ∀ i, i < 2 ^ w.N → satisfy_or_not (bitfield i w.N) w K = false) :
    brute_force w K = (false, List.replicate w.N 1) ∧
      satisfy_or_not (List.replicate w.N 1) w K = false := by
  have hbf := bf_loop_exhaust w K w.N (2 ^ w.N) 0 [] Nat.one_le_two_pow
    (fun j _ hj2 => h j (by omega))
  have hone : bitfield (0 + 2 ^ w.N - 1) w.N = List.replicate w.N 1 := by
    rw [Nat.zero_add]
    exact bitfield_all_ones w.N
  constructor
  · show bf_loop w K w.N (2 ^ w.N) 0 [] = _
    rw [hbf, hone]
  · have hlast := h (2 ^ w.N - 1) (by have := Nat.one_le_two_pow (n := w.N); omega)
    rwa [bitfield_all_ones w.N] at hlast

/-- Witness for C9: the demo graph has no 5-clique (nodes 1 and 3 are not
adjacent), so brute_force returns false with the all-ones assignment. -/
theorem c9_witness :
    brute_force demoGraph 5 = (false, List.replicate 5 1) ∧
      satisfy_or_not (List.replicate 5 1) demoGraph 5 = false :=
  c9_brute_force_no_solution demoGraph 5 (by decide)

/-- C10: the shared bit-ordering convention is most-significant-bit first:
for n below 2 to the L, bitfield n L has exactly L entries, each 0 or 1, and
its entry at position k is bit (L - 1 - k) of n. -/
theorem c10_bitfield_msb_first (n L : Nat) (h : n < 2 ^ L) :
    (bitfield n L).length = L ∧ (∀ v ∈ bitfield n L, v = 0 ∨ v = 1) ∧
      ∀ k, k < L → (bitfield n L).getD k 0 = n / 2 ^ (L - 1 - k) % 2 :=
  ⟨bitfield_length n L h, bitfield_mem n L h, bitfield_getD n L h⟩

/-- Witness for C10 at n = 19, L = 5 (the demo solution index). -/
theorem c10_witness :
    (bitfield 19 5).length = 5 ∧ (∀ v ∈ bitfield 19 5, v = 0 ∨ v = 1) ∧
      ∀ k, k < 5 → (bitfield 19 5).getD k 0 = 19 / 2 ^ (5 - 1 - k) % 2 :=
  c10_bitfield_msb_first 19 5 (by decide)
